import Mathlib

/-!
Verification of the distraction-blocker extension core
(`src/background.js`, popup and content script concatenated).

The JavaScript is shallowly embedded: `chrome.storage.local` is a record
`Store` holding the two keys the core persists (`settings`, `unlockTimers`),
and every storage-touching function is translated in state-passing style,
returning its result together with the (possibly updated) store.  Machine
time (`Date.now()`) is an explicit `now : Nat` parameter in milliseconds.
URL parsing (`new URL(url).hostname`) is a platform black box and is
abstracted as a `parseHost : String → Option String` parameter (`none`
models a parse failure, i.e. the `catch` branch).  dB levels are exact
rationals.
-/

-- ===========================================================================
-- Data model (src/background.js lines 10-31, 44-49)
-- ===========================================================================

/-- One allow-list rule: `{ domain, enabled, name }`. -/
structure Site where
  domain : String
  enabled : Bool
  name : String
deriving Repr, DecidableEq

/-- The persisted settings object (the `volumeThresholds` sub-object is dead
configuration for the functions verified here and is omitted). -/
structure Settings where
  enabled : Bool
  unlockPhrase : String
  blockedSites : List Site
deriving Repr, DecidableEq

/-- One unlock-ledger entry: `{ unlockedUntil, unlockedAt }`, both ms timestamps. -/
structure TimerEntry where
  unlockedUntil : Nat
  unlockedAt : Nat
deriving Repr, DecidableEq

/-- The `unlockTimers` object, a string-keyed map modelled as an association
list (JavaScript object keys are unique; key uniqueness is stated and
preserved as the invariant `timersWF`). -/
abbrev Timers := List (String × TimerEntry)

/-- The two `chrome.storage.local` keys the core persists.  `settings` is
`Option` because `chrome.storage.local.get` yields `undefined` before
initialization (`shouldBlockTab` checks `!settings`). -/
structure Store where
  settings : Option Settings
  unlockTimers : Timers
deriving Repr, DecidableEq

/-- Result shape of `isDomainUnlocked`. -/
structure UnlockStatus where
  unlocked : Bool
  remainingTime : Nat
deriving Repr, DecidableEq

/-- Result shape of `shouldBlockTab`; the early returns `{ shouldBlock: false }`
leave `domain`/`remainingTime` undefined, modelled as `none`/`0`. -/
structure BlockStatus where
  shouldBlock : Bool
  domain : Option String
  remainingTime : Nat
deriving Repr, DecidableEq

/-- Property access `unlockTimers[domain]` on the association list. -/
def timersLookup : Timers → String → Option TimerEntry
  | [], _ => none
  | (d, e) :: rest, domain => if d == domain then some e else timersLookup rest domain

/-- Assignment `unlockTimers[domain] = entry`: overwrite the existing binding
in place, or append a fresh one. -/
def timersInsert : Timers → String → TimerEntry → Timers
  | [], domain, entry => [(domain, entry)]
  | (d, e) :: rest, domain, entry =>
    if d == domain then (domain, entry) :: rest
    else (d, e) :: timersInsert rest domain entry

/-- Deletion `delete unlockTimers[domain]` (a no-op on an absent key). -/
def timersErase (t : Timers) (domain : String) : Timers :=
  t.filter (fun p => !(p.1 == domain))

-- ===========================================================================
-- Character-level string primitives
-- ===========================================================================

/-- Character-level prefix test, modelling `String.prototype.startsWith`
(the built-in `String.startsWith` is byte-position based and does not reduce
in the kernel, so the JavaScript string primitives are modelled on the
character lists instead; for the ASCII data involved the two agree). -/
def listIsPrefixOf : List Char → List Char → Bool
  | [], _ => true
  | _ :: _, [] => false
  | a :: as, b :: bs => a == b && listIsPrefixOf as bs

/-- Suffix test, modelling `String.prototype.endsWith`. -/
def strEndsWith (s suffix : String) : Bool :=
  listIsPrefixOf suffix.data.reverse s.data.reverse

/-- Per-character lowercasing, modelling `String.prototype.toLowerCase`
(both lowercase `A`–`Z`; the data involved is ASCII). -/
def toLowerStr (s : String) : String :=
  String.mk (s.data.map Char.toLower)

/-- Whitespace trimming at both ends, modelling `String.prototype.trim`. -/
def trimStr (s : String) : String :=
  String.mk (((s.data.dropWhile Char.isWhitespace).reverse.dropWhile
    Char.isWhitespace).reverse)

-- ===========================================================================
-- Blocking logic (src/background.js lines 61-144)
-- ===========================================================================

/-- Translation of `getBlockedDomain(url, blockedSites)` (lines 85-102).
`parseHost` abstracts `new URL(url).hostname`; `none` is the thrown-and-caught
parse failure, which makes the function return `null` — it never faults. -/
def getBlockedDomain (parseHost : String → Option String) (url : String)
    (blockedSites : List Site) : Option String :=
  match parseHost url with
  | none => none
  | some host =>
    let hostname := toLowerStr host
    findBlockedSite hostname blockedSites
where
  /-- The `for (const site of blockedSites)` loop body. -/
  findBlockedSite (hostname : String) : List Site → Option String
  | [] => none
  | site :: rest =>
    if !site.enabled then findBlockedSite hostname rest
    else if hostname == site.domain || strEndsWith hostname ("." ++ site.domain) then
      some site.domain
    else findBlockedSite hostname rest

/-- Translation of `isDomainUnlocked(domain)` (lines 107-119): a read of
`unlockTimers` followed by a pure expiry comparison `unlockedUntil > Date.now()`;
`remainingTime` is `Math.ceil((unlockedUntil - now) / 1000)`. -/
def isDomainUnlocked (st : Store) (domain : String) (now : Nat) :
    UnlockStatus × Store :=
  match timersLookup st.unlockTimers domain with
  | some timer =>
    if now < timer.unlockedUntil then
      (⟨true, (timer.unlockedUntil - now + 999) / 1000⟩, st)
    else (⟨false, 0⟩, st)
  | none => (⟨false, 0⟩, st)

/-- Translation of `shouldBlockTab(url)` (lines 124-144). -/
def shouldBlockTab (parseHost : String → Option String) (st : Store)
    (url : String) (now : Nat) : BlockStatus × Store :=
  match st.settings with
  | none => (⟨false, none, 0⟩, st)
  | some settings =>
    if !settings.enabled then (⟨false, none, 0⟩, st)
    else
      match getBlockedDomain parseHost url settings.blockedSites with
      | none => (⟨false, none, 0⟩, st)
      | some blockedDomain =>
        let r := isDomainUnlocked st blockedDomain now
        (⟨!r.1.unlocked, some blockedDomain, r.1.remainingTime⟩, r.2)

-- ===========================================================================
-- Ledger mutation (src/background.js lines 61-76, 235-260, 292-305)
-- ===========================================================================

/-- Result shape of `unlockSite`. -/
structure UnlockResponse where
  success : Bool
  unlockedUntil : Nat
  duration : Nat
deriving Repr, DecidableEq

/-- Translation of `unlockSite(domain, durationSeconds)` (lines 235-260):
writes `{ unlockedUntil: now + duration*1000, unlockedAt: now }` into
`unlockTimers` (overwriting any prior binding) and persists it.  The
`chrome.alarms.create` call and the tab notification do not touch the store. -/
def unlockSite (st : Store) (domain : String) (durationSeconds : Nat)
    (now : Nat) : UnlockResponse × Store :=
  let entry : TimerEntry := ⟨now + durationSeconds * 1000, now⟩
  let timers := timersInsert st.unlockTimers domain entry
  (⟨true, entry.unlockedUntil, durationSeconds⟩, { st with unlockTimers := timers })

/-- Translation of `cleanupExpiredTimers()` (lines 61-76): delete every entry
with `unlockedUntil <= now` (the `hasChanges` flag only skips a redundant
write and does not change the resulting store). -/
def cleanupExpiredTimers (st : Store) (now : Nat) : Store :=
  { st with unlockTimers := st.unlockTimers.filter (fun p => decide (now < p.2.unlockedUntil)) }

/-- Translation of the `chrome.alarms.onAlarm` listener (lines 292-305): for an
alarm named `reblock_<domain>` it deletes that domain's timer entry
unconditionally (`.replace('reblock_', '')` strips the 8-character prefix;
`startsWith` is modelled at the character level). -/
def handleReblockAlarm (st : Store) (alarmName : String) : Store :=
  if listIsPrefixOf "reblock_".data alarmName.data then
    { st with unlockTimers := timersErase st.unlockTimers (alarmName.drop 8) }
  else st

/-- The eviction performed when the `reblock_` alarm for `domain` fires. -/
def alarmEvict (st : Store) (domain : String) : Store :=
  { st with unlockTimers := timersErase st.unlockTimers domain }

-- ===========================================================================
-- Volume-to-duration mapping (content script, lines 738-744 and 1047-1074)
-- ===========================================================================

/-- One row of `VOLUME_DURATION_MAP`: `{ minDb, maxDb, duration, label, emoji }`. -/
structure VolumeMapping where
  minDb : ℚ
  maxDb : ℚ
  duration : Nat
  label : String
  emoji : String
deriving Repr, DecidableEq

/-- The first (lowest) row of `VOLUME_DURATION_MAP`, also the fallback of
`getVolumeDurationMapping`. -/
def whisperMapping : VolumeMapping := ⟨-50, -35, 30, "Whisper", "🤫"⟩

/-- The `VOLUME_DURATION_MAP` table (lines 738-744). -/
def VOLUME_DURATION_MAP : List VolumeMapping :=
  [whisperMapping,
   ⟨-35, -25, 60, "Quiet", "😶"⟩,
   ⟨-25, -15, 120, "Normal", "🗣️"⟩,
   ⟨-15, -5, 300, "Loud", "📢"⟩,
   ⟨-5, 0, 600, "SHOUTING!", "🔊"⟩]

/-- The `for (const mapping of VOLUME_DURATION_MAP)` loop of
`getVolumeDurationMapping` (lines 1048-1052). -/
def findMapping (db : ℚ) : List VolumeMapping → Option VolumeMapping
  | [] => none
  | m :: rest =>
    if m.minDb ≤ db ∧ db < m.maxDb then some m else findMapping db rest

/-- Translation of `getVolumeDurationMapping(db)` (lines 1047-1055): first row
whose `[minDb, maxDb)` contains `db`, defaulting to `VOLUME_DURATION_MAP[0]`. -/
def getVolumeDurationMapping (db : ℚ) : VolumeMapping :=
  (findMapping db VOLUME_DURATION_MAP).getD whisperMapping

-- ===========================================================================
-- Trimmed-mean loudness reduction (content script, lines 1060-1074)
-- ===========================================================================

/-- Ascending insertion used to model `sort((a, b) => a - b)`. -/
def insertSorted (x : ℚ) : List ℚ → List ℚ
  | [] => [x]
  | y :: ys => if x ≤ y then x :: y :: ys else y :: insertSorted x ys

/-- Ascending numeric sort, modelling `[...volumeSamples].sort((a, b) => a - b)`. -/
def sortSamples : List ℚ → List ℚ
  | [] => []
  | x :: xs => insertSorted x (sortSamples xs)

/-- The `sorted.slice(Math.floor(n*0.1), Math.floor(n*0.9))` trim (lines
1065-1068).  For every feasible buffer size the float products `n*0.1` and
`n*0.9` floor to `⌊n/10⌋` and `⌊9n/10⌋` (a non-integer `n/10` is at least
`1/10` away from the nearest integer, far beyond the rounding error), so the
slice bounds are modelled with exact natural division. -/
def trimmedOf (samples : List ℚ) : List ℚ :=
  let sorted := sortSamples samples
  let lo := samples.length / 10
  let hi := 9 * samples.length / 10
  (sorted.drop lo).take (hi - lo)

/-- Sum via `reduce((a, b) => a + b, 0)`. -/
def sumList (l : List ℚ) : ℚ := l.foldl (· + ·) 0

/-- Translation of `calculateAverageVolume()` (lines 1060-1074), with the
`volumeSamples` global passed explicitly: `-60` for an empty buffer, the
untrimmed median `sorted[⌊n/2⌋]` when the trim empties the buffer, otherwise
the mean of the trimmed slice. -/
def calculateAverageVolume (samples : List ℚ) : ℚ :=
  if samples.length = 0 then -60
  else
    let sorted := sortSamples samples
    let trimmed := trimmedOf samples
    if trimmed.length = 0 then sorted.getD (sorted.length / 2) 0
    else sumList trimmed / (trimmed.length : ℚ)

-- ===========================================================================
-- Fuzzy phrase verification (content script, lines 735, 1133-1175, 1355-1374)
-- ===========================================================================

/-- Substring containment, modelling `String.prototype.includes`: the needle
is a prefix of some suffix of the haystack. -/
def hasSubstr (needle : List Char) : List Char → Bool
  | [] => listIsPrefixOf needle []
  | c :: rest => listIsPrefixOf needle (c :: rest) || hasSubstr needle rest

/-- The textbook Levenshtein distance with unit cost for insertion, deletion
and substitution, written as the classical two-sided recursion.  This is the
specification-side definition against which the source's dynamic program is
verified. -/
def levSpec : List Char → List Char → Nat
  | [], ys => ys.length
  | x :: xs, [] => (x :: xs).length
  | x :: xs, y :: ys =>
    if x == y then levSpec xs ys
    else 1 + min (levSpec xs (y :: ys)) (min (levSpec (x :: xs) ys) (levSpec xs ys))
termination_by xs ys => xs.length + ys.length
decreasing_by all_goals simp_wf <;> omega

/-- Inner `for (j = 1; j <= n; j++)` loop of `levenshteinDistance` (lines
1363-1371), computing the tail of row `i` of the `dp` table.  `s2rest` is the
remaining part of `str2`; `diag` is `dp[i-1][j-1]`, `prevRest` carries
`dp[i-1][j], dp[i-1][j+1], …`, and `left` is `dp[i][j-1]`. -/
def levGo (c1 : Char) : List Char → Nat → List Nat → Nat → List Nat
  | [], _, _, _ => []
  | _ :: _, _, [], _ => []
  | c2 :: cs, diag, up :: ups, left =>
    let cur := if c1 == c2 then diag else 1 + min up (min left diag)
    cur :: levGo c1 cs up ups cur

/-- Row `i` of the `dp` table from row `i-1`: `dp[i][0] = i` (line 1360),
then the inner loop. -/
def levNextRow (c1 : Char) (s2 : List Char) (prev : List Nat) (i : Nat) : List Nat :=
  match prev with
  | [] => [i]
  | diag :: rest => i :: levGo c1 s2 diag rest i

/-- Outer `for (i = 1; i <= m; i++)` loop of `levenshteinDistance`,
producing the final row of the `dp` table. -/
def levRows (s2 : List Char) : List Char → List Nat → Nat → List Nat
  | [], row, _ => row
  | c :: cs, row, i => levRows s2 cs (levNextRow c s2 row (i + 1)) (i + 1)

/-- Translation of `levenshteinDistance(str1, str2)` (lines 1355-1374): the
row-by-row dynamic program, starting from row 0 `[0, 1, …, n]` (line 1361)
and returning `dp[m][n]`. -/
def levenshteinDistance (str1 str2 : String) : Nat :=
  let s1 := str1.data
  let s2 := str2.data
  ((levRows s2 s1 (List.range (s2.length + 1)) 0).getLast?).getD 0

/-- The `UNLOCK_PHRASE` constant (content script line 735). -/
def UNLOCK_PHRASE : String :=
  String.mk ['i', '\'', 'm', ' ', 'a', ' ', 'l', 'o', 's', 'e', 'r']

/-- The acceptance decision of `validatePhrase(transcript)` (lines 1133-1141):
lowercase and trim both strings, then accept on substring containment or a
`levenshteinDistance` of at most 3. -/
def validatePhraseMatch (transcript : String) : Bool :=
  let normalizedTranscript := trimStr (toLowerStr transcript)
  let normalizedPhrase := trimStr (toLowerStr UNLOCK_PHRASE)
  hasSubstr normalizedPhrase.data normalizedTranscript.data
    || decide (levenshteinDistance normalizedTranscript normalizedPhrase ≤ 3)

-- ===========================================================================
-- Specification-side predicates and proof-side row descriptions
-- ===========================================================================

/-- The match condition of a single rule, as a proposition: the rule is
enabled and the hostname equals its domain or ends with `"." + domain`. -/
def HostMatches (hostname : String) (site : Site) : Prop :=
  site.enabled = true ∧
    (hostname = site.domain ∨ strEndsWith hostname ("." ++ site.domain) = true)

/-- An entry is well formed when its expiry is its grant time plus a strictly
positive duration in milliseconds. -/
def entryWF (e : TimerEntry) : Prop :=
  ∃ s : Nat, 0 < s ∧ e.unlockedUntil = e.unlockedAt + s * 1000

/-- Ledger well-formedness: domains are unique and every entry is well formed. -/
def timersWF (t : Timers) : Prop :=
  (t.map Prod.fst).Nodup ∧ ∀ p ∈ t, entryWF p.2

/-- The trimmed mean exactly as the specification words it: sort, discard the
lowest 10% and the highest 10% of the samples by count rounding down, and
average the remainder.  Stated only to compare against the source's
`calculateAverageVolume`, whose upper slice bound is `⌊9n/10⌋` instead. -/
def claimTrimmedMean (samples : List ℚ) : ℚ :=
  let n := samples.length
  let k := n / 10
  let sorted := sortSamples samples
  let kept := (sorted.drop k).take (n - 2 * k)
  sumList kept / (kept.length : ℚ)

/-- Proof-side description of the tail of a `dp` row: for the processed
(reversed) prefix `rxs` of `str1` and the reversed processed prefix `rp` of
`str2`, it lists the distances to each extension of `rp` by the remaining
characters `s2rest`. -/
def rowAux (rxs rp s2rest : List Char) : List Nat :=
  match s2rest with
  | [] => []
  | d :: ds => levSpec rxs (d :: rp) :: rowAux rxs (d :: rp) ds

/-- A whole `dp` row for the processed (reversed) prefix `rxs` of `str1`. -/
def fullRow (rxs s2 : List Char) : List Nat :=
  levSpec rxs [] :: rowAux rxs [] s2

-- ===========================================================================
-- Helper lemmas: ledger reads and writes
-- ===========================================================================

/-- Looking up the key just written returns the written entry. -/
theorem timersLookup_insert_self (t : Timers) (d : String) (e : TimerEntry) :
    timersLookup (timersInsert t d e) d = some e := by
  induction t with
  | nil => simp [timersInsert, timersLookup]
  | cons p rest ih =>
    obtain ⟨d1, e1⟩ := p
    by_cases h : d1 == d
    · simp [timersInsert, h, timersLookup]
    · simp [timersInsert, h, timersLookup, ih]

/-- The ledger read never writes the store back. -/
theorem isDomainUnlocked_store (st : Store) (d : String) (now : Nat) :
    (isDomainUnlocked st d now).2 = st := by
  unfold isDomainUnlocked
  cases timersLookup st.unlockTimers d with
  | none => rfl
  | some timer => dsimp only; split <;> rfl

/-- The ledger read reports live exactly when an entry exists whose
`unlockedUntil` lies strictly in the future. -/
theorem isDomainUnlocked_unlocked_iff (st : Store) (d : String) (now : Nat) :
    (isDomainUnlocked st d now).1.unlocked = true ↔
      ∃ e, timersLookup st.unlockTimers d = some e ∧ now < e.unlockedUntil := by
  unfold isDomainUnlocked
  cases h : timersLookup st.unlockTimers d with
  | none => simp
  | some timer =>
    by_cases hlt : now < timer.unlockedUntil <;> simp [hlt]

/-- C1: the lock decision reports blocked iff the global enabled flag is set,
the URL's hostname matches some enabled rule (via `getBlockedDomain`), and no
live unlock entry exists for the matched domain; when the settings are absent,
globally disabled, or the URL is unmatched, the result is the fixed
not-blocked value whatever the unlock ledger holds. -/
theorem C1_lock_decision (parseHost : String → Option String) (st : Store)
    (url : String) (now : Nat) :
    ((shouldBlockTab parseHost st url now).1.shouldBlock = true ↔
      ∃ s, st.settings = some s ∧ s.enabled = true ∧
        ∃ d, getBlockedDomain parseHost url s.blockedSites = some d ∧
          ¬ ∃ e, timersLookup st.unlockTimers d = some e ∧ now < e.unlockedUntil) ∧
    (∀ t' : Timers,
      (st.settings = none ∨
        (∃ s, st.settings = some s ∧
          (s.enabled = false ∨ getBlockedDomain parseHost url s.blockedSites = none))) →
      (shouldBlockTab parseHost { st with unlockTimers := t' } url now).1 =
        ⟨false, none, 0⟩) := by
  constructor
  · cases hset : st.settings with
    | none => simp [shouldBlockTab, hset]
    | some s =>
      by_cases he : s.enabled
      · cases hgd : getBlockedDomain parseHost url s.blockedSites with
        | none => simp [shouldBlockTab, hset, he, hgd]
        | some d =>
          have hui := isDomainUnlocked_unlocked_iff st d now
          have hred : (shouldBlockTab parseHost st url now).1.shouldBlock =
              !(isDomainUnlocked st d now).1.unlocked := by
            simp [shouldBlockTab, hset, he, hgd]
          rw [hred]
          constructor
          · intro hnb
            refine ⟨s, rfl, he, d, hgd, ?_⟩
            rintro ⟨e, he1, he2⟩
            have : (isDomainUnlocked st d now).1.unlocked = true :=
              hui.mpr ⟨e, he1, he2⟩
            simp [this] at hnb
          · rintro ⟨s', hs', he', d', hd', hnl⟩
            injection hs' with h1
            subst h1
            rw [hgd] at hd'
            injection hd' with h2
            subst h2
            by_cases hu : (isDomainUnlocked st d now).1.unlocked
            · exact absurd (hui.mp hu) hnl
            · simp [hu]
      · simp [shouldBlockTab, hset, he]
  · intro t' h
    rcases h with hnone | ⟨s, hs, hcase⟩
    · simp [shouldBlockTab, hnone]
    · rcases hcase with hdis | hnom
      · simp [shouldBlockTab, hs, hdis]
      · by_cases he : s.enabled
        · simp [shouldBlockTab, hs, he, hnom]
        · simp [shouldBlockTab, hs, he]

/-- C9: the lock decision is side-effect-free — it hands back the persisted
settings and the unlock-timer ledger unchanged, for every URL, store and time. -/
theorem C9_decision_pure (parseHost : String → Option String) (st : Store)
    (url : String) (now : Nat) :
    (shouldBlockTab parseHost st url now).2.settings = st.settings ∧
    (shouldBlockTab parseHost st url now).2.unlockTimers = st.unlockTimers ∧
    (shouldBlockTab parseHost st url now).2 = st := by
  have h : (shouldBlockTab parseHost st url now).2 = st := by
    cases hset : st.settings with
    | none => simp [shouldBlockTab, hset]
    | some s =>
      by_cases he : s.enabled
      · cases hgd : getBlockedDomain parseHost url s.blockedSites with
        | none => simp [shouldBlockTab, hset, he, hgd]
        | some d => simp [shouldBlockTab, hset, he, hgd, isDomainUnlocked_store]
      · simp [shouldBlockTab, hset, he]
  exact ⟨by rw [h], by rw [h], h⟩

/-- C3: granting a positive duration `s` at time `now` makes the lazy ledger
read report live with exactly `s` remaining seconds at that same instant; from
`expiresAt` on the same read reports not-live with no sweep or alarm having
run; the read is pure and reports live iff a strictly future entry exists. -/
theorem C3_grant_then_lazy_read (st : Store) (d : String) (s now : Nat)
    (hs : 0 < s) :
    ((isDomainUnlocked ((unlockSite st d s now).2) d now).1 =
      ⟨true, s⟩) ∧
    (∀ now2, now + s * 1000 ≤ now2 →
      (isDomainUnlocked ((unlockSite st d s now).2) d now2).1 = ⟨false, 0⟩) ∧
    (unlockSite st d s now).1 = ⟨true, now + s * 1000, s⟩ ∧
    (∀ st2 d2 n2, (isDomainUnlocked st2 d2 n2).2 = st2) := by
  have hlk : timersLookup ((unlockSite st d s now).2).unlockTimers d =
      some ⟨now + s * 1000, now⟩ := by
    simp [unlockSite, timersLookup_insert_self]
  refine ⟨?_, ?_, rfl, fun st2 d2 n2 => isDomainUnlocked_store st2 d2 n2⟩
  · have hnow : now < now + s * 1000 := by omega
    simp [isDomainUnlocked, hlk, hnow]
    omega
  · intro now2 h2
    have hnow : ¬ (now2 < now + s * 1000) := by omega
    simp [isDomainUnlocked, hlk, hnow]

/-- Closed witness for the hypotheses of `C3_grant_then_lazy_read`. -/
theorem C3_witness :
    (isDomainUnlocked ((unlockSite ⟨none, []⟩ "example.com" 30 1000).2)
      "example.com" 1000).1 = ⟨true, 30⟩ ∧
    (isDomainUnlocked ((unlockSite ⟨none, []⟩ "example.com" 30 1000).2)
      "example.com" 31000).1 = ⟨false, 0⟩ :=
  ⟨(C3_grant_then_lazy_read ⟨none, []⟩ "example.com" 30 1000 (by decide)).1,
   (C3_grant_then_lazy_read ⟨none, []⟩ "example.com" 30 1000 (by decide)).2.1
     31000 (by decide)⟩

/-- Closed witness for the implication in `C1_lock_decision`. -/
theorem C1_witness :
    (shouldBlockTab (fun _ => none) ⟨none, []⟩ "https://x.test/" 0).1 =
      ⟨false, none, 0⟩ :=
  (C1_lock_decision (fun _ => none) ⟨none, ([] : Timers)⟩ "https://x.test/" 0).2
    [] (Or.inl rfl)

-- ===========================================================================
-- Helper lemmas: eviction as list filtering
-- ===========================================================================

/-- Absence of a key is the same as every stored pair carrying another key. -/
theorem timersLookup_eq_none_iff (t : Timers) (d : String) :
    timersLookup t d = none ↔ ∀ p ∈ t, (p.1 == d) = false := by
  induction t with
  | nil => simp [timersLookup]
  | cons p rest ih =>
    obtain ⟨d1, e1⟩ := p
    by_cases h : (d1 == d) = true
    · simp only [timersLookup, h, if_true]
      constructor
      · intro hl
        cases hl
      · intro hall
        have := hall (d1, e1) (List.mem_cons_self _ _)
        rw [h] at this
        cases this
    · have hF : (d1 == d) = false := by simpa using h
      simp only [timersLookup, hF, Bool.false_eq_true, if_false]
      rw [ih]
      constructor
      · intro hall p hp
        rcases List.mem_cons.mp hp with rfl | hm
        · exact hF
        · exact hall p hm
      · intro hall p hp
        exact hall p (List.mem_cons_of_mem _ hp)

/-- After erasing a key it can no longer be looked up. -/
theorem timersLookup_erase (t : Timers) (d : String) :
    timersLookup (timersErase t d) d = none := by
  induction t with
  | nil => simp [timersErase, timersLookup]
  | cons p rest ih =>
    obtain ⟨d1, e1⟩ := p
    by_cases h : d1 == d <;>
      simp [timersErase, List.filter, h, timersLookup] <;>
      simpa [timersErase] using ih

/-- A prefix test succeeds on its own extension. -/
theorem listIsPrefixOf_append (pre rest : List Char) :
    listIsPrefixOf pre (pre ++ rest) = true := by
  induction pre with
  | nil => simp [listIsPrefixOf]
  | cons a as ih => simp [listIsPrefixOf, ih]

/-- C7: eviction is idempotent and race-insensitive: a second alarm eviction
is absorbed, evicting an absent key is a no-op, the periodic sweep is
idempotent, alarm eviction and the sweep commute (either interleaving yields
the same single store), the racing pair always leaves the key absent, and the
`onAlarm` listener for `reblock_<domain>` performs exactly the eviction. -/
theorem C7_evict_idempotent (st : Store) (d : String) (now : Nat) :
    alarmEvict (alarmEvict st d) d = alarmEvict st d ∧
    (timersLookup st.unlockTimers d = none → alarmEvict st d = st) ∧
    cleanupExpiredTimers (cleanupExpiredTimers st now) now =
      cleanupExpiredTimers st now ∧
    cleanupExpiredTimers (alarmEvict st d) now =
      alarmEvict (cleanupExpiredTimers st now) d ∧
    timersLookup (cleanupExpiredTimers (alarmEvict st d) now).unlockTimers d =
      none ∧
    (∀ st2 : Store, handleReblockAlarm st2 ("reblock_" ++ d) = alarmEvict st2 d) := by
  refine ⟨?_, ?_, ?_, ?_, ?_, ?_⟩
  · simp only [alarmEvict, timersErase]
    rw [List.filter_filter]
    simp only [Bool.and_self]
  · intro h
    have hall := (timersLookup_eq_none_iff st.unlockTimers d).mp h
    simp only [alarmEvict, timersErase]
    have : st.unlockTimers.filter (fun p => !(p.1 == d)) = st.unlockTimers :=
      List.filter_eq_self.mpr (fun p hp => by simp [hall p hp])
    rw [this]
  · simp only [cleanupExpiredTimers]
    rw [List.filter_filter]
    simp only [Bool.and_self]
  · simp only [cleanupExpiredTimers, alarmEvict, timersErase]
    rw [List.filter_filter, List.filter_filter]
    have hfun : (fun (a : String × TimerEntry) =>
        decide (now < a.2.unlockedUntil) && !(a.1 == d)) =
        (fun a => !(a.1 == d) && decide (now < a.2.unlockedUntil)) := by
      funext a
      exact Bool.and_comm _ _
    rw [hfun]
  · simp only [cleanupExpiredTimers, alarmEvict, timersErase]
    rw [List.filter_filter]
    rw [timersLookup_eq_none_iff]
    intro p hp
    have := List.of_mem_filter hp
    rcases Bool.and_eq_true_iff.mp this with ⟨h1, h2⟩
    simpa using h2
  · intro st2
    have hpre : listIsPrefixOf "reblock_".data ("reblock_" ++ d).data = true := by
      rw [String.data_append]
      exact listIsPrefixOf_append _ _
    have hdrop : ("reblock_" ++ d).drop 8 = d := by
      apply String.ext
      rw [String.data_drop, String.data_append]
      rw [show (8 : Nat) = ("reblock_".data).length from rfl, List.drop_left]
    rw [handleReblockAlarm, if_pos hpre, hdrop]
    rfl

/-- Closed witness for the hypothesis in `C7_evict_idempotent`. -/
theorem C7_witness :
    alarmEvict ⟨none, []⟩ "example.com" = (⟨none, []⟩ : Store) :=
  (C7_evict_idempotent ⟨none, ([] : Timers)⟩ "example.com" 0).2.1 rfl

-- ===========================================================================
-- Helper lemmas: ledger well-formedness
-- ===========================================================================

/-- Members after an insert are the inserted pair or prior members. -/
theorem mem_timersInsert (t : Timers) (d : String) (e : TimerEntry)
    (p : String × TimerEntry) (hp : p ∈ timersInsert t d e) :
    p = (d, e) ∨ p ∈ t := by
  induction t with
  | nil =>
    simp [timersInsert] at hp
    exact Or.inl hp
  | cons q rest ih =>
    obtain ⟨d1, e1⟩ := q
    by_cases h : (d1 == d) = true
    · simp only [timersInsert, h, if_true] at hp
      rcases List.mem_cons.mp hp with rfl | hm
      · exact Or.inl rfl
      · exact Or.inr (List.mem_cons_of_mem _ hm)
    · simp only [timersInsert, h, Bool.false_eq_true, if_false] at hp
      rcases List.mem_cons.mp hp with rfl | hm
      · exact Or.inr (List.mem_cons_self _ _)
      · rcases ih hm with h1 | h1
        · exact Or.inl h1
        · exact Or.inr (List.mem_cons_of_mem _ h1)

/-- Keys after an insert are prior keys or the inserted key. -/
theorem mem_keys_timersInsert (t : Timers) (d : String) (e : TimerEntry)
    (x : String) (hx : x ∈ (timersInsert t d e).map Prod.fst) :
    x ∈ t.map Prod.fst ∨ x = d := by
  rcases List.mem_map.mp hx with ⟨p, hp, rfl⟩
  rcases mem_timersInsert t d e p hp with rfl | hm
  · exact Or.inr rfl
  · exact Or.inl (List.mem_map.mpr ⟨p, hm, rfl⟩)

/-- Inserting preserves key uniqueness. -/
theorem keys_nodup_timersInsert (t : Timers) (d : String) (e : TimerEntry)
    (h : (t.map Prod.fst).Nodup) :
    ((timersInsert t d e).map Prod.fst).Nodup := by
  induction t with
  | nil => simp [timersInsert]
  | cons q rest ih =>
    obtain ⟨d1, e1⟩ := q
    rw [List.map_cons, List.nodup_cons] at h
    by_cases hb : (d1 == d) = true
    · have hd : d1 = d := eq_of_beq hb
      simp only [timersInsert, hb, if_true, List.map_cons, List.nodup_cons]
      exact ⟨hd ▸ h.1, h.2⟩
    · have hne : d1 ≠ d := fun hc => hb (beq_iff_eq.mpr hc)
      simp only [timersInsert, hb, Bool.false_eq_true, if_false,
        List.map_cons, List.nodup_cons]
      refine ⟨?_, ih h.2⟩
      intro hc
      rcases mem_keys_timersInsert rest d e d1 hc with hm | hm
      · exact h.1 hm
      · exact hne hm

/-- C8: the ledger invariant — unique domains, every entry's `unlockedUntil`
equal to `unlockedAt` plus a positive duration — is preserved by a grant with
positive duration, by alarm eviction and by the sweep; the grant stores
exactly `{ unlockedUntil: now + s*1000, unlockedAt: now }` under its domain
(overwriting, since uniqueness is preserved) and leaves every other domain's
entries untouched. -/
theorem C8_ledger_invariant (st : Store) (d : String) (s now : Nat)
    (hs : 0 < s) (hwf : timersWF st.unlockTimers) :
    timersWF ((unlockSite st d s now).2).unlockTimers ∧
    timersWF (alarmEvict st d).unlockTimers ∧
    timersWF (cleanupExpiredTimers st now).unlockTimers ∧
    timersLookup ((unlockSite st d s now).2).unlockTimers d =
      some ⟨now + s * 1000, now⟩ ∧
    (∀ p ∈ ((unlockSite st d s now).2).unlockTimers,
      p.1 ≠ d → p ∈ st.unlockTimers) := by
  obtain ⟨hnd, hent⟩ := hwf
  refine ⟨⟨?_, ?_⟩, ⟨?_, ?_⟩, ⟨?_, ?_⟩, ?_, ?_⟩
  · exact keys_nodup_timersInsert st.unlockTimers d _ hnd
  · intro p hp
    rcases mem_timersInsert st.unlockTimers d _ p hp with rfl | hm
    · exact ⟨s, hs, rfl⟩
    · exact hent p hm
  · exact hnd.sublist ((List.filter_sublist _).map Prod.fst)
  · intro p hp
    exact hent p (List.mem_of_mem_filter hp)
  · exact hnd.sublist ((List.filter_sublist _).map Prod.fst)
  · intro p hp
    exact hent p (List.mem_of_mem_filter hp)
  · exact timersLookup_insert_self st.unlockTimers d _
  · intro p hp hne
    rcases mem_timersInsert st.unlockTimers d _ p hp with rfl | hm
    · exact absurd rfl hne
    · exact hm

/-- Closed witness for the hypotheses of `C8_ledger_invariant`. -/
theorem C8_witness :
    timersLookup ((unlockSite ⟨none, [("a.com", ⟨2000, 1000⟩)]⟩
      "example.com" 30 5000).2).unlockTimers "example.com" =
      some ⟨35000, 5000⟩ :=
  (C8_ledger_invariant ⟨none, [("a.com", ⟨2000, 1000⟩)]⟩ "example.com" 30 5000
    (by decide)
    ⟨by decide, by
      intro p hp
      simp only [List.mem_singleton] at hp
      subst hp
      exact ⟨1, by decide, rfl⟩⟩).2.2.2.1

-- ===========================================================================
-- Helper lemmas: domain matching
-- ===========================================================================

/-- The matcher loop succeeds exactly when some rule matches. -/
theorem findBlockedSite_isSome_iff (h : String) (sites : List Site) :
    (getBlockedDomain.findBlockedSite h sites).isSome ↔
      ∃ site ∈ sites, HostMatches h site := by
  induction sites with
  | nil => simp [getBlockedDomain.findBlockedSite]
  | cons site rest ih =>
    by_cases he : site.enabled = true
    · by_cases hm : (h == site.domain || strEndsWith h ("." ++ site.domain)) = true
      · simp only [getBlockedDomain.findBlockedSite, he, Bool.not_true,
          Bool.false_eq_true, if_false, hm, if_true, Option.isSome_some]
        constructor
        · intro _
          refine ⟨site, List.mem_cons_self _ _, he, ?_⟩
          rcases Bool.or_eq_true_iff.mp hm with h1 | h1
          · exact Or.inl (beq_iff_eq.mp h1)
          · exact Or.inr h1
        · intro _
          trivial
      · simp only [getBlockedDomain.findBlockedSite, he, Bool.not_true,
          Bool.false_eq_true, if_false, hm, ih]
        constructor
        · rintro ⟨s2, hs2, hms2⟩
          exact ⟨s2, List.mem_cons_of_mem _ hs2, hms2⟩
        · rintro ⟨s2, hs2, hms2⟩
          rcases List.mem_cons.mp hs2 with rfl | hs2'
          · exfalso
            apply hm
            rcases hms2.2 with h1 | h1
            · simp [h1]
            · simp [h1]
          · exact ⟨s2, hs2', hms2⟩
    · have he' : site.enabled = false := by
        cases hsb : site.enabled
        · rfl
        · exact absurd hsb he
      simp only [getBlockedDomain.findBlockedSite, he', Bool.not_false, if_true, ih]
      constructor
      · rintro ⟨s2, hs2, hms2⟩
        exact ⟨s2, List.mem_cons_of_mem _ hs2, hms2⟩
      · rintro ⟨s2, hs2, hms2⟩
        rcases List.mem_cons.mp hs2 with rfl | hs2'
        · exact absurd hms2.1 he
        · exact ⟨s2, hs2', hms2⟩

/-- A successful match names the first matching rule in list order. -/
theorem findBlockedSite_eq_some (h : String) (sites : List Site) (d : String)
    (hf : getBlockedDomain.findBlockedSite h sites = some d) :
    ∃ pre site post, sites = pre ++ site :: post ∧ site.domain = d ∧
      HostMatches h site ∧ ∀ site2 ∈ pre, ¬ HostMatches h site2 := by
  induction sites with
  | nil => cases hf
  | cons site rest ih =>
    by_cases he : site.enabled = true
    · by_cases hm : (h == site.domain || strEndsWith h ("." ++ site.domain)) = true
      · simp only [getBlockedDomain.findBlockedSite, he, Bool.not_true,
          Bool.false_eq_true, if_false, hm, if_true] at hf
        injection hf with hd
        refine ⟨[], site, rest, by simp, hd, ⟨he, ?_⟩, by simp⟩
        rcases Bool.or_eq_true_iff.mp hm with h1 | h1
        · exact Or.inl (beq_iff_eq.mp h1)
        · exact Or.inr h1
      · simp only [getBlockedDomain.findBlockedSite, he, Bool.not_true,
          Bool.false_eq_true, if_false, hm] at hf
        obtain ⟨pre, s2, post, hsp, hd, hms, hpre⟩ := ih hf
        refine ⟨site :: pre, s2, post, by rw [hsp]; rfl, hd, hms, ?_⟩
        intro s3 hs3
        rcases List.mem_cons.mp hs3 with rfl | hs3'
        · intro hc
          apply hm
          rcases hc.2 with h1 | h1
          · simp [h1]
          · simp [h1]
        · exact hpre s3 hs3'
    · have he' : site.enabled = false := by
        cases hsb : site.enabled
        · rfl
        · exact absurd hsb he
      simp only [getBlockedDomain.findBlockedSite, he', Bool.not_false, if_true] at hf
      obtain ⟨pre, s2, post, hsp, hd, hms, hpre⟩ := ih hf
      refine ⟨site :: pre, s2, post, by rw [hsp]; rfl, hd, hms, ?_⟩
      intro s3 hs3
      rcases List.mem_cons.mp hs3 with rfl | hs3'
      · intro hc
        exact he hc.1
      · exact hpre s3 hs3'

/-- C2: the domain matcher never faults — an unparsable URL yields no match —
and otherwise matches exactly when the lowercased hostname equals an enabled
rule's domain or ends with `"." + domain`, the first such rule in list order
winning. -/
theorem C2_domain_matcher (parseHost : String → Option String) (url : String)
    (sites : List Site) :
    (parseHost url = none → getBlockedDomain parseHost url sites = none) ∧
    (∀ host, parseHost url = some host →
      (((getBlockedDomain parseHost url sites).isSome) ↔
        ∃ site ∈ sites, HostMatches (toLowerStr host) site) ∧
      (∀ d, getBlockedDomain parseHost url sites = some d →
        ∃ pre site post, sites = pre ++ site :: post ∧ site.domain = d ∧
          HostMatches (toLowerStr host) site ∧
          ∀ site2 ∈ pre, ¬ HostMatches (toLowerStr host) site2)) := by
  constructor
  · intro h
    simp [getBlockedDomain, h]
  · intro host hh
    constructor
    · rw [show getBlockedDomain parseHost url sites =
          getBlockedDomain.findBlockedSite (toLowerStr host) sites by
        simp [getBlockedDomain, hh]]
      exact findBlockedSite_isSome_iff (toLowerStr host) sites
    · intro d hd
      rw [show getBlockedDomain parseHost url sites =
          getBlockedDomain.findBlockedSite (toLowerStr host) sites by
        simp [getBlockedDomain, hh]] at hd
      exact findBlockedSite_eq_some (toLowerStr host) sites d hd

/-- Closed witness for the hypotheses of `C2_domain_matcher`: a parser failure
yields no match, and a subdomain matches an enabled rule. -/
theorem C2_witness :
    getBlockedDomain (fun _ => none) "not a url" [⟨"example.com", true, "Ex"⟩] =
      none ∧
    (getBlockedDomain (fun _ => some "Sub.Example.com") "https://sub.example.com/x"
      [⟨"example.com", true, "Ex"⟩]).isSome = true :=
  ⟨(C2_domain_matcher (fun _ => none) "not a url" [⟨"example.com", true, "Ex"⟩]).1
      rfl,
   ((C2_domain_matcher (fun _ => some "Sub.Example.com") "https://sub.example.com/x"
      [⟨"example.com", true, "Ex"⟩]).2 "Sub.Example.com" rfl).1.mpr
    ⟨⟨"example.com", true, "Ex"⟩, List.mem_singleton.mpr rfl,
      rfl, Or.inr (by decide)⟩⟩

-- ===========================================================================
-- Breakpoint lookup claims
-- ===========================================================================

/-- C5: on the representative-level domain (levels strictly below 0 dB) the
lookup selects exactly one breakpoint: below the lowest `minDb` no row's
`[min, max)` range contains the level and the fallback returns the lowest
row, while from `-50` up exactly one row contains the level and the lookup
returns a containing row of the table — the first, since it is unique. -/
theorem C5_breakpoint_total (level : ℚ) (hneg : level < 0) :
    (level < -50 →
      VOLUME_DURATION_MAP.countP
        (fun m => decide (m.minDb ≤ level ∧ level < m.maxDb)) = 0 ∧
      getVolumeDurationMapping level = whisperMapping) ∧
    (-50 ≤ level →
      VOLUME_DURATION_MAP.countP
        (fun m => decide (m.minDb ≤ level ∧ level < m.maxDb)) = 1 ∧
      getVolumeDurationMapping level ∈ VOLUME_DURATION_MAP ∧
      (getVolumeDurationMapping level).minDb ≤ level ∧
      level < (getVolumeDurationMapping level).maxDb) := by
  rcases lt_or_le level (-50) with h50 | h50
  · have c1 : ¬((-50:ℚ) ≤ level ∧ level < -35) := fun h => by linarith [h.1]
    have c2 : ¬((-35:ℚ) ≤ level ∧ level < -25) := fun h => by linarith [h.1]
    have c3 : ¬((-25:ℚ) ≤ level ∧ level < -15) := fun h => by linarith [h.1]
    have c4 : ¬((-15:ℚ) ≤ level ∧ level < -5) := fun h => by linarith [h.1]
    have c5 : ¬((-5:ℚ) ≤ level ∧ level < 0) := fun h => by linarith [h.1]
    refine ⟨fun _ => ⟨?_, ?_⟩, fun hge => absurd hge (not_le.mpr h50)⟩
    · simp [VOLUME_DURATION_MAP, whisperMapping, List.countP_cons, c1, c2, c3, c4, c5]
    · simp [getVolumeDurationMapping, VOLUME_DURATION_MAP, findMapping,
        whisperMapping, c1, c2, c3, c4, c5]
  · refine ⟨fun hlt => absurd hlt (not_lt.mpr h50), fun _ => ?_⟩
    rcases lt_or_le level (-35) with h35 | h35
    · have c1 : ((-50:ℚ) ≤ level ∧ level < -35) := ⟨h50, h35⟩
      have c2 : ¬((-35:ℚ) ≤ level ∧ level < -25) := fun h => by linarith [h.1]
      have c3 : ¬((-25:ℚ) ≤ level ∧ level < -15) := fun h => by linarith [h.1]
      have c4 : ¬((-15:ℚ) ≤ level ∧ level < -5) := fun h => by linarith [h.1]
      have c5 : ¬((-5:ℚ) ≤ level ∧ level < 0) := fun h => by linarith [h.1]
      have hsel : getVolumeDurationMapping level = whisperMapping := by
        simp [getVolumeDurationMapping, VOLUME_DURATION_MAP, findMapping,
          whisperMapping, c1]
      refine ⟨?_, ?_, ?_, ?_⟩
      · simp [VOLUME_DURATION_MAP, whisperMapping, List.countP_cons, c1, c2, c3, c4, c5]
      · rw [hsel]; simp [VOLUME_DURATION_MAP]
      · rw [hsel]; exact h50
      · rw [hsel]; exact h35
    · rcases lt_or_le level (-25) with h25 | h25
      · have c2 : ((-35:ℚ) ≤ level ∧ level < -25) := ⟨h35, h25⟩
        have c1 : ¬((-50:ℚ) ≤ level ∧ level < -35) := fun h => by linarith [h.2]
        have c3 : ¬((-25:ℚ) ≤ level ∧ level < -15) := fun h => by linarith [h.1]
        have c4 : ¬((-15:ℚ) ≤ level ∧ level < -5) := fun h => by linarith [h.1]
        have c5 : ¬((-5:ℚ) ≤ level ∧ level < 0) := fun h => by linarith [h.1]
        have hsel : getVolumeDurationMapping level = ⟨-35, -25, 60, "Quiet", "😶"⟩ := by
          simp [getVolumeDurationMapping, VOLUME_DURATION_MAP, findMapping,
            whisperMapping, c1, c2]
        refine ⟨?_, ?_, ?_, ?_⟩
        · simp [VOLUME_DURATION_MAP, whisperMapping, List.countP_cons, c1, c2, c3, c4, c5]
        · rw [hsel]; simp [VOLUME_DURATION_MAP]
        · rw [hsel]; exact h35
        · rw [hsel]; exact h25
      · rcases lt_or_le level (-15) with h15 | h15
        · have c3 : ((-25:ℚ) ≤ level ∧ level < -15) := ⟨h25, h15⟩
          have c1 : ¬((-50:ℚ) ≤ level ∧ level < -35) := fun h => by linarith [h.2]
          have c2 : ¬((-35:ℚ) ≤ level ∧ level < -25) := fun h => by linarith [h.2]
          have c4 : ¬((-15:ℚ) ≤ level ∧ level < -5) := fun h => by linarith [h.1]
          have c5 : ¬((-5:ℚ) ≤ level ∧ level < 0) := fun h => by linarith [h.1]
          have hsel : getVolumeDurationMapping level = ⟨-25, -15, 120, "Normal", "🗣️"⟩ := by
            simp [getVolumeDurationMapping, VOLUME_DURATION_MAP, findMapping,
              whisperMapping, c1, c2, c3]
          refine ⟨?_, ?_, ?_, ?_⟩
          · simp [VOLUME_DURATION_MAP, whisperMapping, List.countP_cons, c1, c2, c3, c4, c5]
          · rw [hsel]; simp [VOLUME_DURATION_MAP]
          · rw [hsel]; exact h25
          · rw [hsel]; exact h15
        · rcases lt_or_le level (-5) with h5 | h5
          · have c4 : ((-15:ℚ) ≤ level ∧ level < -5) := ⟨h15, h5⟩
            have c1 : ¬((-50:ℚ) ≤ level ∧ level < -35) := fun h => by linarith [h.2]
            have c2 : ¬((-35:ℚ) ≤ level ∧ level < -25) := fun h => by linarith [h.2]
            have c3 : ¬((-25:ℚ) ≤ level ∧ level < -15) := fun h => by linarith [h.2]
            have c5 : ¬((-5:ℚ) ≤ level ∧ level < 0) := fun h => by linarith [h.1]
            have hsel : getVolumeDurationMapping level = ⟨-15, -5, 300, "Loud", "📢"⟩ := by
              simp [getVolumeDurationMapping, VOLUME_DURATION_MAP, findMapping,
                whisperMapping, c1, c2, c3, c4]
            refine ⟨?_, ?_, ?_, ?_⟩
            · simp [VOLUME_DURATION_MAP, whisperMapping, List.countP_cons, c1, c2, c3, c4, c5]
            · rw [hsel]; simp [VOLUME_DURATION_MAP]
            · rw [hsel]; exact h15
            · rw [hsel]; exact h5
          · have c5 : ((-5:ℚ) ≤ level ∧ level < 0) := ⟨h5, hneg⟩
            have c1 : ¬((-50:ℚ) ≤ level ∧ level < -35) := fun h => by linarith [h.2]
            have c2 : ¬((-35:ℚ) ≤ level ∧ level < -25) := fun h => by linarith [h.2]
            have c3 : ¬((-25:ℚ) ≤ level ∧ level < -15) := fun h => by linarith [h.2]
            have c4 : ¬((-15:ℚ) ≤ level ∧ level < -5) := fun h => by linarith [h.2]
            have hsel : getVolumeDurationMapping level = ⟨-5, 0, 600, "SHOUTING!", "🔊"⟩ := by
              simp [getVolumeDurationMapping, VOLUME_DURATION_MAP, findMapping,
                whisperMapping, c1, c2, c3, c4, c5]
            refine ⟨?_, ?_, ?_, ?_⟩
            · simp [VOLUME_DURATION_MAP, whisperMapping, List.countP_cons, c1, c2, c3, c4, c5]
            · rw [hsel]; simp [VOLUME_DURATION_MAP]
            · rw [hsel]; exact h5
            · rw [hsel]; exact hneg

/-- Closed witness for the hypotheses of `C5_breakpoint_total`, at a level in
the table's range and at one below it. -/
theorem C5_witness :
    (VOLUME_DURATION_MAP.countP
      (fun m => decide (m.minDb ≤ (-40:ℚ) ∧ (-40:ℚ) < m.maxDb)) = 1) ∧
    getVolumeDurationMapping (-60) = whisperMapping :=
  ⟨((C5_breakpoint_total (-40) (by norm_num)).2 (by norm_num)).1,
   ((C5_breakpoint_total (-60) (by norm_num)).1 (by norm_num)).2⟩

/-- C10: at levels of 0 dB and above, the lookup loop's `db < maxDb` test
fails on every row (the top row's range `[-5, 0)` is half-open), so the
below-table default branch also applies above the table: the result is the
first row — 30 seconds, `Whisper` — not the highest bucket. -/
theorem C10_above_table_falls_back (level : ℚ) (h : 0 ≤ level) :
    getVolumeDurationMapping level = whisperMapping ∧
    (getVolumeDurationMapping level).duration = 30 ∧
    (getVolumeDurationMapping level).label = "Whisper" ∧
    getVolumeDurationMapping level ≠ ⟨-5, 0, 600, "SHOUTING!", "🔊"⟩ ∧
    VOLUME_DURATION_MAP.countP
      (fun m => decide (m.minDb ≤ level ∧ level < m.maxDb)) = 0 := by
  have c1 : ¬((-50:ℚ) ≤ level ∧ level < -35) := fun hc => by linarith [hc.2]
  have c2 : ¬((-35:ℚ) ≤ level ∧ level < -25) := fun hc => by linarith [hc.2]
  have c3 : ¬((-25:ℚ) ≤ level ∧ level < -15) := fun hc => by linarith [hc.2]
  have c4 : ¬((-15:ℚ) ≤ level ∧ level < -5) := fun hc => by linarith [hc.2]
  have c5 : ¬((-5:ℚ) ≤ level ∧ level < 0) := fun hc => by linarith [hc.2]
  have hsel : getVolumeDurationMapping level = whisperMapping := by
    simp [getVolumeDurationMapping, VOLUME_DURATION_MAP, findMapping,
      whisperMapping, c1, c2, c3, c4, c5]
  refine ⟨hsel, by rw [hsel]; rfl, by rw [hsel]; rfl,
    by rw [hsel]; simp [whisperMapping], ?_⟩
  simp [VOLUME_DURATION_MAP, whisperMapping, List.countP_cons, c1, c2, c3, c4, c5]

/-- Closed witness for the hypothesis of `C10_above_table_falls_back`, at the
attainable full-scale level 0 dB. -/
theorem C10_witness :
    getVolumeDurationMapping 0 = whisperMapping ∧
    (getVolumeDurationMapping 0).duration = 30 :=
  ⟨(C10_above_table_falls_back 0 le_rfl).1,
   (C10_above_table_falls_back 0 le_rfl).2.1⟩

-- ===========================================================================
-- Trimmed-mean claims
-- ===========================================================================

/-- The sort used by `calculateAverageVolume` preserves the sample count. -/
theorem insertSorted_length (x : ℚ) (l : List ℚ) :
    (insertSorted x l).length = l.length + 1 := by
  induction l with
  | nil => rfl
  | cons y ys ih =>
    by_cases h : x ≤ y <;> simp [insertSorted, h, ih]

/-- Sorting preserves the sample count. -/
theorem sortSamples_length (l : List ℚ) :
    (sortSamples l).length = l.length := by
  induction l with
  | nil => rfl
  | cons x xs ih => simp [sortSamples, insertSorted_length, ih]

/-- C6 counterexample: on fifteen samples `1..15` the code's trim keeps the
twelve sorted samples `2..13` (mean `15/2`) while the claimed "discard 10%
from each end, rounding down" keeps the thirteen samples `2..14` (mean `8`);
and on an empty buffer the code returns `-60`, which is not a level of the
breakpoint table (it is below the lowest `minDb` and is contained in no row's
range), reaching the lowest row only through the fallback branch. -/
theorem C6_counterexample :
    calculateAverageVolume
      [1, 2, 3, 4, 5, 6, 7, 8, 9, 10, 11, 12, 13, 14, 15] = 15 / 2 ∧
    claimTrimmedMean
      [1, 2, 3, 4, 5, 6, 7, 8, 9, 10, 11, 12, 13, 14, 15] = 8 ∧
    ((15 : ℚ) / 2) ≠ 8 ∧
    calculateAverageVolume [] = -60 ∧
    (-60 : ℚ) < whisperMapping.minDb ∧
    VOLUME_DURATION_MAP.countP
      (fun m => decide (m.minDb ≤ (-60:ℚ) ∧ (-60:ℚ) < m.maxDb)) = 0 ∧
    getVolumeDurationMapping (-60) = whisperMapping := by
  refine ⟨?_, ?_, by norm_num, by norm_num [calculateAverageVolume],
    by decide, by decide, by decide⟩
  · have h1 : trimmedOf [1, 2, 3, 4, 5, 6, 7, 8, 9, 10, 11, 12, 13, 14, 15] =
        [2, 3, 4, 5, 6, 7, 8, 9, 10, 11, 12, 13] := by decide
    rw [calculateAverageVolume]
    norm_num [h1, sumList, trimmedOf, sortSamples, insertSorted]
  · rw [claimTrimmedMean]
    norm_num [sumList, sortSamples, insertSorted]

/-- C6 (amended): the representative level of a non-empty buffer is the mean
of the sorted samples with indices in `[⌊n/10⌋, ⌊9n/10⌋)` — that is, the
lowest `⌊n/10⌋` and the highest `n - ⌊9n/10⌋` samples are discarded, which
for ten samples is exactly the lowest one and the highest one; if the trim
empties the buffer (possible only for a single sample) the result is the
untrimmed median `sorted[⌊n/2⌋]`; for an empty buffer the result is `-60`,
a level below the whole table that selects the lowest breakpoint only
through the fallback. -/
theorem C6_trimmed_mean (samples : List ℚ) :
    (samples = [] → calculateAverageVolume samples = -60) ∧
    (samples.length = 10 →
      trimmedOf samples = ((sortSamples samples).drop 1).take 8) ∧
    (samples ≠ [] → trimmedOf samples = [] →
      calculateAverageVolume samples =
        (sortSamples samples).getD (samples.length / 2) 0) ∧
    (samples ≠ [] → trimmedOf samples ≠ [] →
      calculateAverageVolume samples =
        sumList (trimmedOf samples) / ((trimmedOf samples).length : ℚ)) ∧
    (2 ≤ samples.length → trimmedOf samples ≠ []) := by
  have hlen : (sortSamples samples).length = samples.length :=
    sortSamples_length samples
  refine ⟨?_, ?_, ?_, ?_, ?_⟩
  · intro h
    subst h
    rfl
  · intro h10
    simp [trimmedOf, h10]
  · intro hne htr
    have hn : ¬ samples.length = 0 := by
      simpa [List.length_eq_zero] using hne
    rw [calculateAverageVolume, if_neg hn]
    simp only [htr, List.length_nil, if_pos rfl]
    rw [hlen]
    simp
  · intro hne htr
    have hn : ¬ samples.length = 0 := by
      simpa [List.length_eq_zero] using hne
    have htl : ¬ (trimmedOf samples).length = 0 := by
      simpa [List.length_eq_zero] using htr
    rw [calculateAverageVolume, if_neg hn]
    simp only [htl, if_false]
  · intro h2
    have hlow : samples.length / 10 < 9 * samples.length / 10 := by omega
    have hup : samples.length / 10 < samples.length := by omega
    intro hc
    have : (trimmedOf samples).length = 0 := by rw [hc]; rfl
    rw [trimmedOf] at this
    simp only [List.length_take, List.length_drop, hlen] at this
    omega

/-- Closed witness for the hypotheses of `C6_trimmed_mean`. -/
theorem C6_witness :
    calculateAverageVolume [] = -60 ∧
    trimmedOf [3, 1, 4, 1, 5, 9, 2, 6, 5, 3] =
      ((sortSamples [3, 1, 4, 1, 5, 9, 2, 6, 5, 3]).drop 1).take 8 ∧
    calculateAverageVolume [5] = (sortSamples [5]).getD 0 0 ∧
    calculateAverageVolume [1, 2] =
      sumList (trimmedOf [1, 2]) / ((trimmedOf [1, 2]).length : ℚ) ∧
    trimmedOf [1, 2] ≠ [] :=
  ⟨(C6_trimmed_mean []).1 rfl,
   (C6_trimmed_mean [3, 1, 4, 1, 5, 9, 2, 6, 5, 3]).2.1 rfl,
   (C6_trimmed_mean [5]).2.2.1 (by simp) (by decide),
   (C6_trimmed_mean [1, 2]).2.2.2.1 (by simp) (by decide),
   (C6_trimmed_mean [1, 2]).2.2.2.2 (by decide)⟩

-- ===========================================================================
-- Levenshtein distance: spec-side recursion facts
-- ===========================================================================

/-- Distance from the empty string is the length. -/
theorem levSpec_nil_left (ys : List Char) : levSpec [] ys = ys.length := by
  cases ys <;> rw [levSpec]

/-- Distance to the empty string is the length. -/
theorem levSpec_nil_right (xs : List Char) : levSpec xs [] = xs.length := by
  cases xs <;> rw [levSpec]

/-- The defining head-to-head recursion step of `levSpec`. -/
theorem levSpec_cons_cons (x y : Char) (xs ys : List Char) :
    levSpec (x :: xs) (y :: ys) =
      if x == y then levSpec xs ys
      else 1 + min (levSpec xs (y :: ys)) (min (levSpec (x :: xs) ys) (levSpec xs ys)) := by
  rw [levSpec]

/-- The distance is symmetric in its arguments. -/
theorem levSpec_comm (xs : List Char) : ∀ ys, levSpec xs ys = levSpec ys xs := by
  induction xs with
  | nil =>
    intro ys
    rw [levSpec_nil_left, levSpec_nil_right]
  | cons x xs ihx =>
    intro ys
    induction ys with
    | nil => rw [levSpec_nil_left, levSpec_nil_right]
    | cons y ys ihy =>
      rw [levSpec_cons_cons, levSpec_cons_cons]
      by_cases h : x = y
      · subst h
        simp [ihx ys]
      · have h1 : (x == y) = false := beq_eq_false_iff_ne.mpr h
        have h2 : (y == x) = false := beq_eq_false_iff_ne.mpr (Ne.symm h)
        rw [h1, h2]
        simp only [Bool.false_eq_true, if_false]
        rw [ihx (y :: ys), ihx ys, ihy]
        omega

/-- Distance from a single character, in closed form. -/
theorem levSpec_single (c : Char) (zs : List Char) :
    levSpec [c] zs = if c ∈ zs then zs.length - 1 else max 1 zs.length := by
  induction zs with
  | nil => simp [levSpec_nil_right]
  | cons z zs ih =>
    rw [levSpec_cons_cons]
    by_cases h : c = z
    · subst h
      simp [levSpec_nil_left]
    · have h1 : (c == z) = false := beq_eq_false_iff_ne.mpr h
      rw [h1]
      simp only [Bool.false_eq_true, if_false, levSpec_nil_left, ih]
      by_cases hm : c ∈ zs
      · have hzs : zs ≠ [] := by rintro rfl; cases hm
        have hlen : 1 ≤ zs.length := by
          cases zs
          · exact absurd rfl hzs
          · simp
        simp only [hm, if_true, List.mem_cons, h, false_or, hm, List.length_cons]
        omega
      · have hmem : ¬ (c ∈ z :: zs) := by
          intro hc
          rcases List.mem_cons.mp hc with rfl | hc'
          · exact h rfl
          · exact hm hc'
        simp only [hm, if_false, hmem, List.length_cons]
        omega

/-- The tail-to-tail recurrence against a single character on the left. -/
theorem levSpec_single_append (c d : Char) (ys : List Char) :
    levSpec [c] (ys ++ [d]) =
      if c == d then levSpec [] ys
      else 1 + min (levSpec [] (ys ++ [d]))
        (min (levSpec [c] ys) (levSpec [] ys)) := by
  rw [levSpec_single, levSpec_single, levSpec_nil_left, levSpec_nil_left]
  by_cases hcd : c = d
  · subst hcd
    have hmem : c ∈ ys ++ [c] :=
      List.mem_append_right _ (List.mem_singleton.mpr rfl)
    simp only [hmem, if_true, beq_self_eq_true, List.length_append,
      List.length_singleton]
    omega
  · have h1 : (c == d) = false := beq_eq_false_iff_ne.mpr hcd
    have hmm : (c ∈ ys ++ [d]) ↔ (c ∈ ys) := by simp [hcd]
    rw [h1]
    simp only [Bool.false_eq_true, if_false, hmm, List.length_append,
      List.length_singleton]
    by_cases hm : c ∈ ys
    · have hys : ys ≠ [] := by rintro rfl; cases hm
      have h1l : 1 ≤ ys.length := List.length_pos.mpr hys
      simp only [hm, if_true]
      omega
    · simp only [hm, if_false]
      omega

/-- Regrouping identity for the nine-term minimum arising in the tail-to-tail
recurrence. -/
theorem nat_min_regroup (a1 a2 a3 b1 b2 b3 c1 c2 c3 : Nat) :
    1 + min (1 + min a1 (min a2 a3))
      (min (1 + min b1 (min b2 b3)) (1 + min c1 (min c2 c3))) =
    1 + min (1 + min a1 (min b1 c1))
      (min (1 + min a2 (min b2 c2)) (1 + min a3 (min b3 c3))) := by
  have dist : ∀ X Y : Nat, min (1 + X) (1 + Y) = 1 + min X Y := fun X Y => by
    omega
  rw [dist, dist, dist, dist]
  congr 1
  congr 1
  ac_rfl

/-- The tail-to-tail recursion step: appending one character to each argument
satisfies the same Levenshtein recurrence at the right ends. -/
theorem levSpec_append_append (c d : Char) (xs ys : List Char) :
    levSpec (xs ++ [c]) (ys ++ [d]) =
      if c == d then levSpec xs ys
      else 1 + min (levSpec xs (ys ++ [d]))
        (min (levSpec (xs ++ [c]) ys) (levSpec xs ys)) := by
  suffices H : ∀ n (xs ys : List Char), xs.length + ys.length = n →
      levSpec (xs ++ [c]) (ys ++ [d]) =
        if c == d then levSpec xs ys
        else 1 + min (levSpec xs (ys ++ [d]))
          (min (levSpec (xs ++ [c]) ys) (levSpec xs ys)) by
    exact H (xs.length + ys.length) xs ys rfl
  intro n
  induction n using Nat.strong_induction_on with
  | _ n ih =>
    intro xs ys hlen
    match xs, ys with
    | [], ys =>
      simpa only [List.nil_append] using levSpec_single_append c d ys
    | x :: xs', [] =>
      simp only [List.nil_append]
      rw [levSpec_comm, levSpec_single_append d c]
      by_cases hcd : c = d
      · subst hcd
        simp only [beq_self_eq_true, if_true]
        exact levSpec_comm _ _
      · have h1 : (c == d) = false := beq_eq_false_iff_ne.mpr hcd
        have h2 : (d == c) = false := beq_eq_false_iff_ne.mpr (Ne.symm hcd)
        rw [h1, h2]
        simp only [Bool.false_eq_true, if_false]
        rw [levSpec_comm [], levSpec_comm [d], levSpec_comm []]
        omega
    | x :: xs', y :: ys' =>
      have hs1 : xs'.length + (y :: ys').length < n := by
        simp only [List.length_cons] at hlen ⊢
        omega
      have hs2 : (x :: xs').length + ys'.length < n := by
        simp only [List.length_cons] at hlen ⊢
        omega
      have hs3 : xs'.length + ys'.length < n := by
        simp only [List.length_cons] at hlen
        omega
      have ih1 := ih _ hs1 xs' (y :: ys') rfl
      have ih2 := ih _ hs2 (x :: xs') ys' rfl
      have ih3 := ih _ hs3 xs' ys' rfl
      simp only [List.cons_append] at ih1 ih2 ⊢
      rw [levSpec_cons_cons x y (xs' ++ [c]) (ys' ++ [d]),
        levSpec_cons_cons x y xs' (ys' ++ [d]),
        levSpec_cons_cons x y (xs' ++ [c]) ys',
        levSpec_cons_cons x y xs' ys']
      by_cases hxy : x = y
      · have hxyT : (x == y) = true := beq_iff_eq.mpr hxy
        rw [hxyT]
        simp only [if_true]
        exact ih3
      · have hxyF : (x == y) = false := beq_eq_false_iff_ne.mpr hxy
        rw [hxyF]
        simp only [Bool.false_eq_true, if_false]
        rw [ih1, ih2, ih3]
        by_cases hcd : c = d
        · have hcdT : (c == d) = true := beq_iff_eq.mpr hcd
          rw [hcdT]
          simp only [if_true]
        · have hcdF : (c == d) = false := beq_eq_false_iff_ne.mpr hcd
          rw [hcdF]
          simp only [Bool.false_eq_true, if_false]
          exact nat_min_regroup _ _ _ _ _ _ _ _ _

/-- The Levenshtein distance is invariant under reversing both strings. -/
theorem levSpec_reverse (xs ys : List Char) :
    levSpec xs ys = levSpec xs.reverse ys.reverse := by
  suffices H : ∀ n (xs ys : List Char), xs.length + ys.length = n →
      levSpec xs ys = levSpec xs.reverse ys.reverse by
    exact H (xs.length + ys.length) xs ys rfl
  intro n
  induction n using Nat.strong_induction_on with
  | _ n ih =>
    intro xs ys hlen
    match xs, ys with
    | [], ys => simp [levSpec_nil_left]
    | x :: xs', [] => simp [levSpec_nil_right]
    | x :: xs', y :: ys' =>
      have hs1 : xs'.length + (y :: ys').length < n := by
        simp only [List.length_cons] at hlen ⊢
        omega
      have hs2 : (x :: xs').length + ys'.length < n := by
        simp only [List.length_cons] at hlen ⊢
        omega
      have hs3 : xs'.length + ys'.length < n := by
        simp only [List.length_cons] at hlen
        omega
      have ih1 := ih _ hs1 xs' (y :: ys') rfl
      have ih2 := ih _ hs2 (x :: xs') ys' rfl
      have ih3 := ih _ hs3 xs' ys' rfl
      rw [levSpec_cons_cons, List.reverse_cons, List.reverse_cons,
        levSpec_append_append, ← ih3,
        ← List.reverse_cons y ys', ← ih1,
        ← List.reverse_cons x xs', ← ih2]

/-- The inner loop maps one row of Levenshtein distances to the next. -/
theorem levGo_rowAux (c1 : Char) (s2rest : List Char) :
    ∀ rp rxs, levGo c1 s2rest (levSpec rxs rp) (rowAux rxs rp s2rest)
      (levSpec (c1 :: rxs) rp) = rowAux (c1 :: rxs) rp s2rest := by
  induction s2rest with
  | nil =>
    intro rp rxs
    rfl
  | cons d ds ih =>
    intro rp rxs
    show levGo c1 (d :: ds) (levSpec rxs rp)
        (levSpec rxs (d :: rp) :: rowAux rxs (d :: rp) ds)
        (levSpec (c1 :: rxs) rp) = _
    simp only [levGo, rowAux]
    rw [← levSpec_cons_cons c1 d rxs rp]
    rw [ih (d :: rp) rxs]

/-- The outer loop body maps one full row to the next. -/
theorem levNextRow_fullRow (c1 : Char) (s2 rxs : List Char) :
    levNextRow c1 s2 (fullRow rxs s2) (rxs.length + 1) = fullRow (c1 :: rxs) s2 := by
  show levNextRow c1 s2 (levSpec rxs [] :: rowAux rxs [] s2) (rxs.length + 1) = _
  simp only [levNextRow]
  have hi : rxs.length + 1 = levSpec (c1 :: rxs) [] := by
    rw [levSpec_nil_right]
    simp
  rw [hi, levGo_rowAux c1 s2 [] rxs]
  rfl

/-- The whole dynamic program computes the full row of the processed string. -/
theorem levRows_fullRow (s2 : List Char) : ∀ (cs rxs : List Char),
    levRows s2 cs (fullRow rxs s2) rxs.length = fullRow (cs.reverse ++ rxs) s2 := by
  intro cs
  induction cs with
  | nil =>
    intro rxs
    simp [levRows]
  | cons c cs' ih =>
    intro rxs
    rw [levRows, levNextRow_fullRow]
    have hl : rxs.length + 1 = (c :: rxs).length := by simp
    rw [hl, ih (c :: rxs)]
    congr 1
    simp

/-- Row 0 of the table is `[0, 1, …, n]`. -/
theorem rowAux_nil_eq_range (s2rest : List Char) :
    ∀ rp : List Char, rowAux [] rp s2rest = List.range' (rp.length + 1) s2rest.length := by
  induction s2rest with
  | nil =>
    intro rp
    rfl
  | cons d ds ih =>
    intro rp
    show levSpec [] (d :: rp) :: rowAux [] (d :: rp) ds = _
    rw [levSpec_nil_left, ih (d :: rp)]
    simp [List.range'_succ]

/-- The last element of a row tail is the distance to the whole of `str2`. -/
theorem rowAux_getLast (rxs : List Char) :
    ∀ (s2rest rp : List Char), s2rest ≠ [] →
      (rowAux rxs rp s2rest).getLast? =
        some (levSpec rxs (s2rest.reverse ++ rp)) := by
  intro s2rest
  induction s2rest with
  | nil =>
    intro rp h
    exact absurd rfl h
  | cons d ds ih =>
    intro rp _
    cases ds with
    | nil => simp [rowAux]
    | cons d2 ds2 =>
      show (levSpec rxs (d :: rp) ::
        (levSpec rxs (d2 :: d :: rp) :: rowAux rxs (d2 :: d :: rp) ds2)).getLast? = _
      rw [List.getLast?_cons_cons]
      show (rowAux rxs (d :: rp) (d2 :: ds2)).getLast? = _
      rw [ih (d :: rp) (by simp)]
      congr 1
      simp

/-- The source's dynamic program computes exactly the textbook Levenshtein
distance of the two strings. -/
theorem levenshteinDistance_eq_levSpec (str1 str2 : String) :
    levenshteinDistance str1 str2 = levSpec str1.data str2.data := by
  rw [levenshteinDistance]
  have hrange : List.range (str2.data.length + 1) = fullRow [] str2.data := by
    rw [fullRow, levSpec_nil_left, rowAux_nil_eq_range str2.data []]
    rw [List.range_eq_range']
    simp [List.range'_succ]
  have hrows := levRows_fullRow str2.data str1.data []
  simp only [List.length_nil, List.append_nil] at hrows
  simp only [hrange, hrows]
  cases h2 : str2.data with
  | nil =>
    show ((fullRow str1.data.reverse []).getLast?).getD 0 = _
    rw [fullRow]
    show (some (levSpec str1.data.reverse [])).getD 0 = _
    rw [levSpec_nil_right, levSpec_nil_right]
    simp
  | cons d ds =>
    show ((levSpec str1.data.reverse [] ::
      (levSpec str1.data.reverse [d] ::
        rowAux str1.data.reverse [d] ds)).getLast?).getD 0 = _
    rw [List.getLast?_cons_cons]
    show ((rowAux str1.data.reverse [] (d :: ds)).getLast?).getD 0 = _
    rw [rowAux_getLast str1.data.reverse (d :: ds) [] (by simp)]
    show levSpec str1.data.reverse ((d :: ds).reverse ++ []) = _
    rw [List.append_nil]
    exact (levSpec_reverse str1.data (d :: ds)).symm

/-- Character-level prefix test captures list prefixes. -/
theorem listIsPrefixOf_iff (p : List Char) :
    ∀ l, listIsPrefixOf p l = true ↔ ∃ t, l = p ++ t := by
  induction p with
  | nil =>
    intro l
    simp [listIsPrefixOf]
  | cons a as ih =>
    intro l
    cases l with
    | nil =>
      simp [listIsPrefixOf]
    | cons b bs =>
      simp only [listIsPrefixOf, Bool.and_eq_true, beq_iff_eq, ih bs,
        List.cons_append, List.cons.injEq]
      constructor
      · rintro ⟨rfl, t, rfl⟩
        exact ⟨t, rfl, rfl⟩
      · rintro ⟨t, rfl, rfl⟩
        exact ⟨rfl, t, rfl⟩

/-- The `includes` model captures substring containment. -/
theorem hasSubstr_iff (needle : List Char) :
    ∀ hay, hasSubstr needle hay = true ↔
      ∃ pre post, hay = pre ++ needle ++ post := by
  intro hay
  induction hay with
  | nil =>
    simp only [hasSubstr, listIsPrefixOf_iff]
    constructor
    · rintro ⟨t, ht⟩
      rcases List.append_eq_nil.mp ht.symm with ⟨h1, h2⟩
      exact ⟨[], [], by simp [h1, h2]⟩
    · rintro ⟨pre, post, hp⟩
      rcases List.append_eq_nil.mp (List.append_eq_nil.mp hp.symm).1 with ⟨h1, h2⟩
      exact ⟨[], by simp [h2]⟩
  | cons c rest ih =>
    simp only [hasSubstr, Bool.or_eq_true]
    constructor
    · rintro (h1 | h1)
      · obtain ⟨t, ht⟩ := (listIsPrefixOf_iff _ _).mp h1
        exact ⟨[], t, by simp [ht]⟩
      · obtain ⟨pre, post, hp⟩ := ih.mp h1
        exact ⟨c :: pre, post, by simp [hp]⟩
    · rintro ⟨pre, post, hp⟩
      cases pre with
      | nil =>
        left
        exact (listIsPrefixOf_iff _ _).mpr ⟨post, by simpa using hp⟩
      | cons p ps =>
        right
        simp only [List.cons_append, List.cons.injEq] at hp
        exact ih.mpr ⟨ps, post, hp.2⟩

/-- C4: the phrase check accepts a transcript iff, after lowercasing and
trimming, the transcript contains the secret phrase as a substring or its
Levenshtein distance (unit-cost insert, delete, substitute — `levSpec`) to
the phrase is at most 3; in particular a transcript at distance exactly 3
(three substituted letters) is accepted and one at exactly 4 is rejected. -/
theorem C4_phrase_verification :
    (∀ transcript : String,
      validatePhraseMatch transcript = true ↔
        ((∃ pre post, (trimStr (toLowerStr transcript)).data =
            pre ++ (trimStr (toLowerStr UNLOCK_PHRASE)).data ++ post) ∨
          levSpec (trimStr (toLowerStr transcript)).data
            (trimStr (toLowerStr UNLOCK_PHRASE)).data ≤ 3)) ∧
    validatePhraseMatch
      (String.mk ['i', '\'', 'm', ' ', 'a', ' ', 'l', 'o', 'z', 'z', 'z']) = true ∧
    levSpec (String.mk ['i', '\'', 'm', ' ', 'a', ' ', 'l', 'o', 'z', 'z', 'z']).data
      (trimStr (toLowerStr UNLOCK_PHRASE)).data = 3 ∧
    validatePhraseMatch
      (String.mk ['i', '\'', 'm', ' ', 'a', ' ', 'l', 'z', 'z', 'z', 'z']) = false ∧
    levSpec (String.mk ['i', '\'', 'm', ' ', 'a', ' ', 'l', 'z', 'z', 'z', 'z']).data
      (trimStr (toLowerStr UNLOCK_PHRASE)).data = 4 := by
  refine ⟨?_, ?_, ?_, ?_, ?_⟩
  · intro transcript
    rw [validatePhraseMatch]
    simp only [Bool.or_eq_true, decide_eq_true_eq,
      hasSubstr_iff, levenshteinDistance_eq_levSpec]
  · decide
  · rw [← levenshteinDistance_eq_levSpec]
    decide
  · decide
  · rw [← levenshteinDistance_eq_levSpec]
    decide

/-- Closed witness applying `C4_phrase_verification` at the accepted
distance-3 transcript. -/
theorem C4_witness :
    validatePhraseMatch
      (String.mk ['i', '\'', 'm', ' ', 'a', ' ', 'l', 'o', 'z', 'z', 'z']) = true :=
  C4_phrase_verification.2.1
